import Mathlib

/-!
# Verification of the `par-map` parallel iterator adaptors

Shallow embedding of `src/lib.rs` (crate `par_map`).

The crate adds parallel iterator adaptors: `par_map`, `par_flat_map`,
`pack`, `par_packed_map`, `par_packed_flat_map`.  Each adaptor owns a
`CpuPool` of `num_cpus::get()` worker threads and keeps a `VecDeque` of
`CpuFuture` task handles (the window).  The mapping closure is pure,
and the consumer blocks (`future.wait()`) on the *front* future before
anything else is observable, so the sequence of values delivered to the
consumer is deterministic: a task submitted for item `a` deterministically
yields `Ok (f a)` when awaited.  We therefore model a pending
`CpuFuture<B, ()>` by the `Except Unit B` value its closure returns
(`Ok(f(item))`, i.e. `Except.ok (f item)`; the `Err`/`Except.error` case
is carried so that the `unwrap()` in `next()` can be modelled honestly),
the pool by its size, and the upstream iterator by the list of items it
has yet to yield.  `num_cpus::get()` is an environment query; it becomes
the parameter `numThreads` of the constructors.
-/

namespace ParMap

/-- State of the `Map` adaptor (struct `Map<I, B, F>` in `lib.rs`):
`pool` is the `CpuPool` (modelled by its thread count), `queue` the
`VecDeque<CpuFuture<B, ()>>` of pending task results, `iter` the not yet
pulled rest of the upstream iterator, `f` the shared closure `Arc<F>`. -/
structure Map (α β : Type) where
  pool : Nat
  queue : List (Except Unit β)
  iter : List α
  f : α → β

/-- `Map::spawn`: pull one item from the upstream iterator; if there is
one, submit `move || Ok(f(item))` to the pool and push the resulting
future at the back of the queue. -/
def Map.spawn {α β : Type} (m : Map α β) : Map α β :=
  match m.iter with
  | [] => m
  | item :: rest =>
    { m with iter := rest, queue := m.queue ++ [Except.ok (m.f item)] }

/-- `<Map as Iterator>::next`: pop the front future; if there is none the
sequence is over; otherwise `wait().unwrap()` it (an `Err` result would
panic, modelled by `Except.error`), spawn one replacement task, and
return the unwrapped value.  The returned state is the mutated `self`. -/
def Map.next {α β : Type} (m : Map α β) : Except Unit (Option β × Map α β) :=
  match m.queue with
  | [] => Except.ok (none, m)
  | t :: q =>
    match t with
    | Except.error e => Except.error e
    | Except.ok i => Except.ok (some i, Map.spawn { m with queue := q })

/-- `ParMap::par_map`: build the adaptor with an empty queue and call
`spawn` `num_threads * 2` times (the pre-fill loop `for _ in
0..num_threads * 2`). -/
def par_map {α β : Type} (numThreads : Nat) (f : α → β) (it : List α) : Map α β :=
  Map.spawn^[numThreads * 2] { pool := numThreads, queue := [], iter := it, f := f }

/-- Consumer harness: repeatedly call `Map.next` until it returns `none`,
collecting the yielded elements; a panic (`Except.error`) aborts.  The
theorem `Map.map_drain_eq_next` below shows this is exactly the
"call `next` until it returns `None`" loop. -/
def Map.drain {α β : Type} : Map α β → Except Unit (List β)
  | ⟨_p, [], _it, _f⟩ => Except.ok []
  | ⟨_p, Except.error e :: _q, _it, _f⟩ => Except.error e
  | ⟨p, Except.ok i :: q, it, f⟩ =>
      (Map.drain (Map.spawn ⟨p, q, it, f⟩)).map (fun l => i :: l)
termination_by m => m.queue.length + m.iter.length
decreasing_by
  rcases it with _ | ⟨x, rest⟩ <;> simp [Map.spawn]

/-- Step-closure of `Map.next` ("during consumption"): the states the
adaptor passes through while the consumer repeatedly calls `next`. -/
inductive Map.ReachN {α β : Type} : Map α β → Map α β → Prop
  | refl (m : Map α β) : Map.ReachN m m
  | step {m₀ m m' : Map α β} {b : Option β} :
      Map.ReachN m₀ m → Map.next m = Except.ok (b, m') → Map.ReachN m₀ m'

/-- States of the `Map` adaptor built by `par_map numThreads f xs`, at
every point during construction (after `k ≤ numThreads * 2` of the
pre-fill `spawn` calls) and during consumption (any number of `next`
calls afterwards). -/
inductive Map.Reach {α β : Type} (n : Nat) (f : α → β) (xs : List α) : Map α β → Prop
  | init (k : Nat) (hk : k ≤ n * 2) :
      Map.Reach n f xs (Map.spawn^[k] ⟨n, [], xs, f⟩)
  | step {m m' : Map α β} {b : Option β} :
      Map.Reach n f xs m → Map.next m = Except.ok (b, m') → Map.Reach n f xs m'

/-- State of the `FlatMap` adaptor (struct `FlatMap<I, U, F>` in
`lib.rs`): as for `Map`, plus `cur_iter`, the iterator over the most
recently completed task's collected buffer (`::std::vec::IntoIter`,
initialised from `vec![]`).  A task for item `a` computes
`Ok(f(a).into_iter().collect())`; composing the Rust closure `f` with
`into_iter().collect()` gives the model closure `f : α → List γ`. -/
structure FlatMap (α γ : Type) where
  pool : Nat
  queue : List (Except Unit (List γ))
  iter : List α
  f : α → List γ
  cur_iter : List γ

/-- `FlatMap::spawn`: pull one item; if there is one, submit
`move || Ok(f(item).into_iter().collect())` and push the future at the
back of the queue. -/
def FlatMap.spawn {α γ : Type} (m : FlatMap α γ) : FlatMap α γ :=
  match m.iter with
  | [] => m
  | item :: rest =>
    { m with iter := rest, queue := m.queue ++ [Except.ok (m.f item)] }

/-- `<FlatMap as Iterator>::next`: loop — first drain `cur_iter`; when it
is exhausted pop the front future (returning `none` if the queue is
empty), `wait().unwrap()` it, install its buffer as the new `cur_iter`,
spawn one replacement task, and retry. -/
def FlatMap.next {α γ : Type} : FlatMap α γ → Except Unit (Option γ × FlatMap α γ)
  | ⟨p, queue, it, f, x :: rest⟩ => Except.ok (some x, ⟨p, queue, it, f, rest⟩)
  | ⟨p, [], it, f, []⟩ => Except.ok (none, ⟨p, [], it, f, []⟩)
  | ⟨_p, Except.error e :: _q, _it, _f, []⟩ => Except.error e
  | ⟨p, Except.ok v :: q, it, f, []⟩ => FlatMap.next (FlatMap.spawn ⟨p, q, it, f, v⟩)
termination_by m => m.queue.length + m.iter.length
decreasing_by
  rcases it with _ | ⟨x, rest⟩ <;> simp [FlatMap.spawn]

/-- `ParMap::par_flat_map`: empty queue, empty current buffer
(`vec![].into_iter()`), then the pre-fill loop of `num_threads * 2`
`spawn` calls. -/
def par_flat_map {α γ : Type} (numThreads : Nat) (f : α → List γ) (it : List α) :
    FlatMap α γ :=
  FlatMap.spawn^[numThreads * 2]
    { pool := numThreads, queue := [], iter := it, f := f, cur_iter := [] }

/-- Consumer harness for `FlatMap`: repeatedly call `next` until `none`.
`FlatMap.flat_drain_eq_next` below shows this is that loop. -/
def FlatMap.drain {α γ : Type} : FlatMap α γ → Except Unit (List γ)
  | ⟨p, queue, it, f, x :: rest⟩ =>
      (FlatMap.drain ⟨p, queue, it, f, rest⟩).map (fun l => x :: l)
  | ⟨_p, [], _it, _f, []⟩ => Except.ok []
  | ⟨_p, Except.error e :: _q, _it, _f, []⟩ => Except.error e
  | ⟨p, Except.ok v :: q, it, f, []⟩ => FlatMap.drain (FlatMap.spawn ⟨p, q, it, f, v⟩)
termination_by m => (m.queue.length + m.iter.length, m.cur_iter.length)
decreasing_by
  · apply Prod.Lex.right
    simp
  · apply Prod.Lex.left
    rcases it with _ | ⟨x, rest⟩ <;> simp [FlatMap.spawn]

/-- Step-closure of `FlatMap.next` during consumption. -/
inductive FlatMap.ReachN {α γ : Type} : FlatMap α γ → FlatMap α γ → Prop
  | refl (m : FlatMap α γ) : FlatMap.ReachN m m
  | step {m₀ m m' : FlatMap α γ} {x : Option γ} :
      FlatMap.ReachN m₀ m → FlatMap.next m = Except.ok (x, m') → FlatMap.ReachN m₀ m'

/-- States of the `FlatMap` adaptor built by `par_flat_map numThreads f
xs`, during construction and consumption. -/
inductive FlatMap.Reach {α γ : Type} (n : Nat) (f : α → List γ) (xs : List α) :
    FlatMap α γ → Prop
  | init (k : Nat) (hk : k ≤ n * 2) :
      FlatMap.Reach n f xs (FlatMap.spawn^[k] ⟨n, [], xs, f, []⟩)
  | step {m m' : FlatMap α γ} {x : Option γ} :
      FlatMap.Reach n f xs m → FlatMap.next m = Except.ok (x, m') →
      FlatMap.Reach n f xs m'

/-- State of the `Pack` adaptor (struct `Pack<I>` in `lib.rs`). -/
structure Pack (α : Type) where
  iter : List α
  nb : Nat

/-- `ParMap::pack`. -/
def pack {α : Type} (it : List α) (nb : Nat) : Pack α :=
  { iter := it, nb := nb }

/-- `<Pack as Iterator>::next`: collect up to `nb` items from the
upstream iterator (`self.iter.by_ref().take(self.nb).collect()`, which
advances the upstream past exactly the collected items); yield the
chunk unless it is empty. -/
def Pack.next {α : Type} (p : Pack α) : Option (List α) × Pack α :=
  let item := p.iter.take p.nb
  if item.isEmpty then (none, { p with iter := p.iter.drop p.nb })
  else (some item, { p with iter := p.iter.drop p.nb })

/-- Consumer harness for `Pack`: repeatedly call `next` until `none`
(`Pack.pack_drain_eq_next` below shows this is that loop). -/
def Pack.drain {α : Type} : Pack α → List (List α)
  | ⟨it, nb⟩ =>
    if (it.take nb).isEmpty then []
    else it.take nb :: Pack.drain ⟨it.drop nb, nb⟩
termination_by p => p.iter.length
decreasing_by
  rename_i h
  simp only [List.isEmpty_iff, List.take_eq_nil_iff, not_or] at h
  have := List.length_pos.mpr h.2
  simp only [List.length_drop]
  omega

/-- `ParMap::par_packed_map`: `self.pack(nb).par_flat_map(f')` where the
batch closure `f'` re-applies `f` to every element of the batch
(`iter.into_iter().map(move |i| f(i))`, collected by the `FlatMap` task
into `batch.map f`).  The upstream `Pack` adaptor yields exactly the
batch sequence `Pack.drain (pack it nb)` (see `Pack.pack_drain_eq_next`),
which is the list fed to `par_flat_map`. -/
def par_packed_map {α β : Type} (numThreads nb : Nat) (f : α → β) (it : List α) :
    FlatMap (List α) β :=
  par_flat_map numThreads (fun batch => batch.map f) (Pack.drain (pack it nb))

/-- `ParMap::par_packed_flat_map`: same composition with the batch
closure `iter.into_iter().flat_map(move |i| f(i))`, whose collected
buffer is `(batch.map f).flatten`. -/
def par_packed_flat_map {α γ : Type} (numThreads nb : Nat) (f : α → List γ)
    (it : List α) : FlatMap (List α) γ :=
  par_flat_map numThreads (fun batch => (batch.map f).flatten) (Pack.drain (pack it nb))

/-- Sequential reference semantics of `par_packed_map` written directly
from the spec sentence "packed-map(nb, f) applied to S equals
map-parallel(f) applied to S": the comparison point for the refinement
claim is `par_map` itself, so no separate definition is needed; this
abbreviation just names the sequential result both sides must equal. -/
def seqMap {α β : Type} (f : α → β) (xs : List α) : List β :=
  xs.map f

/-! ## Lemmas about the `Map` engine -/

/-- `Map.drain` is exactly the loop "call `next` until it returns
`None`": one `next` step followed by draining the successor state. -/
theorem Map.map_drain_eq_next {α β : Type} (m : Map α β) :
    Map.drain m =
      match Map.next m with
      | Except.error e => Except.error e
      | Except.ok (none, _) => Except.ok []
      | Except.ok (some b, m') => (Map.drain m').map (fun l => b :: l) := by
  rcases m with ⟨p, queue, iter, f⟩
  cases queue with
  | nil => simp [Map.drain, Map.next]
  | cons t q => cases t <;> simp [Map.drain, Map.next]

/-- Iterating `Map.spawn` `k` times moves the first `k` items of the
source into the queue (in pull order), each as an already-submitted
`Ok (f item)` task. -/
theorem Map.map_spawn_iterate {α β : Type} (p : Nat) (f : α → β) :
    ∀ (k : Nat) (pend : List (Except Unit β)) (xs : List α),
      Map.spawn^[k] ⟨p, pend, xs, f⟩
        = ⟨p, pend ++ (xs.take k).map (fun a => Except.ok (f a)), xs.drop k, f⟩ := by
  intro k
  induction k with
  | zero => intro pend xs; simp
  | succ k ih =>
    intro pend xs
    rw [Function.iterate_succ_apply]
    cases xs with
    | nil => simp [Map.spawn, ih]
    | cons x rest => simp [Map.spawn, ih]

/-- If the queue holds exactly the pending items `pend` (as `Ok`-tasks in
pull order) and `rest` is the unpulled remainder, and the queue is only
empty when the source is exhausted, then draining yields `f` mapped over
`pend ++ rest`. -/
theorem Map.map_drain_ok {α β : Type} (p : Nat) (f : α → β) :
    ∀ (n : Nat) (pend : List α) (rest : List α),
      pend.length + rest.length ≤ n → (rest ≠ [] → pend ≠ []) →
      Map.drain ⟨p, pend.map (fun a => Except.ok (f a)), rest, f⟩
        = Except.ok ((pend ++ rest).map f) := by
  intro n
  induction n with
  | zero =>
    intro pend rest hlen hne
    have hp : pend = [] := by cases pend <;> simp_all
    have hr : rest = [] := by cases rest <;> simp_all
    subst hp; subst hr
    simp [Map.drain]
  | succ n ih =>
    intro pend rest hlen hne
    cases pend with
    | nil =>
      have hr : rest = [] := by
        by_contra h
        exact (hne h) rfl
      subst hr
      simp [Map.drain]
    | cons a pend' =>
      simp only [List.map_cons, Map.drain, Map.spawn]
      cases rest with
      | nil =>
        rw [ih pend' [] (by simp at hlen ⊢; omega) (by simp)]
        rfl
      | cons r rest' =>
        have : (pend'.map (fun a => (Except.ok (f a) : Except Unit β))) ++ [Except.ok (f r)]
            = (pend' ++ [r]).map (fun a => Except.ok (f a)) := by simp
        simp only [this]
        rw [ih (pend' ++ [r]) rest' (by simp at hlen ⊢; omega) (by simp)]
        simp [Except.map]

/-- Closed form of the constructed `Map` adaptor: after `par_map`, the
queue holds the first `numThreads * 2` source items as submitted tasks
and the source has advanced past exactly those items. -/
theorem par_map_state {α β : Type} (n : Nat) (f : α → β) (xs : List α) :
    par_map n f xs
      = ⟨n, (xs.take (n * 2)).map (fun a => Except.ok (f a)), xs.drop (n * 2), f⟩ := by
  rw [par_map, Map.map_spawn_iterate]
  simp

/-- Full run of the `Map` adaptor: with at least one worker thread,
draining `par_map n f xs` yields `xs.map f`. -/
theorem par_map_run {α β : Type} (n : Nat) (f : α → β) (xs : List α) (hn : 1 ≤ n) :
    Map.drain (par_map n f xs) = Except.ok (xs.map f) := by
  rw [par_map_state]
  have hne : xs.drop (n * 2) ≠ [] → xs.take (n * 2) ≠ [] := by
    intro hd
    have hxs : xs ≠ [] := by
      intro h
      subst h
      simp at hd
    simp only [ne_eq, List.take_eq_nil_iff, not_or]
    exact ⟨by omega, hxs⟩
  have h := Map.map_drain_ok n f (xs.length + xs.length) (xs.take (n * 2)) (xs.drop (n * 2))
    (by simp [List.length_take, List.length_drop]; omega) hne
  rw [h, List.take_append_drop]

/-- Invariant of all states reachable during construction and
consumption of `par_map n f xs`: the closure is unchanged, the queue
never holds more than `n * 2` tasks, and the source splits into already
consumed items `done`, in-window items `pend` (whose `Ok (f _)` tasks
are the queue, in pull order), and the unpulled remainder `m.iter`. -/
theorem Map.map_reach_inv {α β : Type} {n : Nat} {f : α → β} {xs : List α} {m : Map α β}
    (h : Map.Reach n f xs m) :
    m.f = f ∧ m.pool = n ∧ m.queue.length ≤ n * 2 ∧
      ∃ done pend, xs = done ++ pend ++ m.iter
        ∧ m.queue = pend.map (fun a => Except.ok (f a)) := by
  induction h with
  | init k hk =>
    rw [Map.map_spawn_iterate]
    refine ⟨rfl, rfl, ?_, [], xs.take k, ?_, rfl⟩
    · simp [List.length_take]
      omega
    · simp [List.take_append_drop]
  | step hr hnext ih =>
    obtain ⟨hf, hp, hlen, done, pend, hxs, hq⟩ := ih
    rename_i m m' b
    rcases m with ⟨p, queue, iter, mf⟩
    simp only at hf hp hq hxs
    subst hf; subst hp
    cases pend with
    | nil =>
      simp at hq
      subst hq
      simp [Map.next] at hnext
      obtain ⟨hb, hm'⟩ := hnext
      subst hm'
      exact ⟨rfl, rfl, by simp, done, [], by simpa using hxs, by simp⟩
    | cons a pend' =>
      simp only [List.map_cons] at hq
      subst hq
      simp only [Map.next, Except.ok.injEq, Prod.mk.injEq] at hnext
      obtain ⟨hb, hm'⟩ := hnext
      subst hm'
      cases iter with
      | nil =>
        refine ⟨rfl, rfl, ?_, done ++ [a], pend', ?_, ?_⟩
        · simp [Map.spawn] at hlen ⊢; omega
        · simp only [Map.spawn, List.append_assoc] at hxs ⊢
          simpa using hxs
        · simp [Map.spawn]
      | cons x rest =>
        refine ⟨rfl, rfl, ?_, done ++ [a], pend' ++ [x], ?_, ?_⟩
        · simp [Map.spawn] at hlen ⊢; omega
        · simp only [Map.spawn, List.append_assoc] at hxs ⊢
          simpa using hxs
        · simp [Map.spawn]

/-- Consumption states of the constructed adaptor are among the states
of `Map.Reach` (construction already complete, with `k = n * 2`). -/
theorem Map.reachN_reach {α β : Type} {n : Nat} {f : α → β} {xs : List α} {m : Map α β}
    (h : Map.ReachN (par_map n f xs) m) : Map.Reach n f xs m := by
  induction h with
  | refl => exact Map.Reach.init (n * 2) (le_refl _)
  | step hr hnext ih => exact Map.Reach.step ih hnext

/-- With at least one worker, the queue of a consumption-reachable state
can only be empty once the source is exhausted. -/
theorem Map.reachN_queue_nonempty {α β : Type} {n : Nat} {f : α → β} {xs : List α}
    {m : Map α β} (hn : 1 ≤ n) (h : Map.ReachN (par_map n f xs) m) :
    m.iter ≠ [] → m.queue ≠ [] := by
  induction h with
  | refl =>
    rw [par_map_state]
    intro hiter
    have hxs : xs ≠ [] := by
      intro hcontra
      subst hcontra
      simp at hiter
    simp only [ne_eq, List.map_eq_nil_iff, List.take_eq_nil_iff, not_or]
    exact ⟨by omega, hxs⟩
  | step hr hnext ih =>
    rename_i m m' b
    rcases m with ⟨p, queue, iter, mf⟩
    cases queue with
    | nil =>
      simp [Map.next] at hnext
      obtain ⟨hb, hm'⟩ := hnext
      subst hm'
      exact ih
    | cons t q =>
      cases t with
      | error e => simp [Map.next] at hnext
      | ok i =>
        simp only [Map.next, Except.ok.injEq, Prod.mk.injEq] at hnext
        obtain ⟨hb, hm'⟩ := hnext
        subst hm'
        cases iter with
        | nil => intro hiter; simp [Map.spawn] at hiter
        | cons x rest =>
          intro _
          simp [Map.spawn]

/-! ## Lemmas about the `FlatMap` engine -/

/-- Fuel-indexed version of `FlatMap.flat_drain_eq_next`. -/
theorem FlatMap.flat_drain_next_aux {α γ : Type} :
    ∀ (N : Nat) (m : FlatMap α γ), m.queue.length + m.iter.length ≤ N →
      FlatMap.drain m =
        match FlatMap.next m with
        | Except.error e => Except.error e
        | Except.ok (none, _) => Except.ok []
        | Except.ok (some x, m') => (FlatMap.drain m').map (fun l => x :: l) := by
  intro N
  induction N with
  | zero =>
    intro m hN
    rcases m with ⟨p, queue, it, f, cur⟩
    simp at hN
    obtain ⟨hq, hit⟩ := hN
    have hq' : queue = [] := by cases queue <;> simp_all
    have hit' : it = [] := by cases it <;> simp_all
    subst hq'; subst hit'
    cases cur with
    | nil => simp [FlatMap.drain, FlatMap.next]
    | cons x rest => simp [FlatMap.drain, FlatMap.next]
  | succ N ih =>
    intro m hN
    rcases m with ⟨p, queue, it, f, cur⟩
    cases cur with
    | cons x rest => simp [FlatMap.drain, FlatMap.next]
    | nil =>
      cases queue with
      | nil => simp [FlatMap.drain, FlatMap.next]
      | cons t q =>
        cases t with
        | error e => simp [FlatMap.drain, FlatMap.next]
        | ok v =>
          simp only [FlatMap.drain, FlatMap.next]
          apply ih
          rcases it with _ | ⟨y, ys⟩ <;> simp [FlatMap.spawn] at hN ⊢ <;> omega

/-- `FlatMap.drain` is exactly the loop "call `next` until it returns
`None`". -/
theorem FlatMap.flat_drain_eq_next {α γ : Type} (m : FlatMap α γ) :
    FlatMap.drain m =
      match FlatMap.next m with
      | Except.error e => Except.error e
      | Except.ok (none, _) => Except.ok []
      | Except.ok (some x, m') => (FlatMap.drain m').map (fun l => x :: l) :=
  FlatMap.flat_drain_next_aux (m.queue.length + m.iter.length) m (le_refl _)

/-- Iterating `FlatMap.spawn` `k` times moves the first `k` items of the
source into the queue, each as an `Ok (f item)` task; the current buffer
is untouched. -/
theorem FlatMap.flat_spawn_iterate {α γ : Type} (p : Nat) (f : α → List γ) :
    ∀ (k : Nat) (pend : List (Except Unit (List γ))) (cur : List γ) (xs : List α),
      FlatMap.spawn^[k] ⟨p, pend, xs, f, cur⟩
        = ⟨p, pend ++ (xs.take k).map (fun a => Except.ok (f a)), xs.drop k, f, cur⟩ := by
  intro k
  induction k with
  | zero => intro pend cur xs; simp
  | succ k ih =>
    intro pend cur xs
    rw [Function.iterate_succ_apply]
    cases xs with
    | nil => simp [FlatMap.spawn, ih]
    | cons x rest => simp [FlatMap.spawn, ih]

/-- Draining first yields the whole current buffer, then whatever
draining with an empty buffer yields. -/
theorem FlatMap.drain_cur {α γ : Type} (p : Nat) (f : α → List γ)
    (queue : List (Except Unit (List γ))) (rest : List α) :
    ∀ cur : List γ,
      FlatMap.drain ⟨p, queue, rest, f, cur⟩
        = (FlatMap.drain ⟨p, queue, rest, f, []⟩).map (fun l => cur ++ l) := by
  intro cur
  induction cur with
  | nil =>
    cases FlatMap.drain ⟨p, queue, rest, f, []⟩ <;> simp [Except.map]
  | cons x c ih =>
    simp only [FlatMap.drain, ih]
    cases FlatMap.drain ⟨p, queue, rest, f, []⟩ <;> simp [Except.map]

/-- Analogue of `Map.map_drain_ok` for the `FlatMap` engine: draining a
well-formed window state yields the current buffer followed by the
flattened images of the pending and remaining items. -/
theorem FlatMap.flat_drain_ok {α γ : Type} (p : Nat) (g : α → List γ) :
    ∀ (n : Nat) (pend : List α) (rest : List α),
      pend.length + rest.length ≤ n → (rest ≠ [] → pend ≠ []) →
      FlatMap.drain ⟨p, pend.map (fun a => Except.ok (g a)), rest, g, []⟩
        = Except.ok (((pend ++ rest).map g).flatten) := by
  intro n
  induction n with
  | zero =>
    intro pend rest hlen hne
    have hp : pend = [] := by cases pend <;> simp_all
    have hr : rest = [] := by cases rest <;> simp_all
    subst hp; subst hr
    simp [FlatMap.drain]
  | succ n ih =>
    intro pend rest hlen hne
    cases pend with
    | nil =>
      have hr : rest = [] := by
        by_contra h
        exact (hne h) rfl
      subst hr
      simp [FlatMap.drain]
    | cons a pend' =>
      simp only [List.map_cons, FlatMap.drain, FlatMap.spawn]
      cases rest with
      | nil =>
        rw [FlatMap.drain_cur, ih pend' [] (by simp at hlen ⊢; omega) (by simp)]
        simp [Except.map]
      | cons r rest' =>
        have hmap : (pend'.map (fun a => (Except.ok (g a) : Except Unit (List γ))))
              ++ [Except.ok (g r)]
            = (pend' ++ [r]).map (fun a => Except.ok (g a)) := by simp
        simp only [hmap]
        rw [FlatMap.drain_cur,
          ih (pend' ++ [r]) rest' (by simp at hlen ⊢; omega) (by simp)]
        simp [Except.map]

/-- Closed form of the constructed `FlatMap` adaptor. -/
theorem par_flat_map_state {α γ : Type} (n : Nat) (f : α → List γ) (xs : List α) :
    par_flat_map n f xs
      = ⟨n, (xs.take (n * 2)).map (fun a => Except.ok (f a)), xs.drop (n * 2), f, []⟩ := by
  rw [par_flat_map, FlatMap.flat_spawn_iterate]
  simp

/-- Full run of the `FlatMap` adaptor: with at least one worker thread,
draining `par_flat_map n f xs` yields the concatenation of the `f`
images in source order. -/
theorem par_flat_map_run {α γ : Type} (n : Nat) (f : α → List γ) (xs : List α)
    (hn : 1 ≤ n) :
    FlatMap.drain (par_flat_map n f xs) = Except.ok ((xs.map f).flatten) := by
  rw [par_flat_map_state]
  have hne : xs.drop (n * 2) ≠ [] → xs.take (n * 2) ≠ [] := by
    intro hd
    have hxs : xs ≠ [] := by
      intro h
      subst h
      simp at hd
    simp only [ne_eq, List.take_eq_nil_iff, not_or]
    exact ⟨by omega, hxs⟩
  have h := FlatMap.flat_drain_ok n f (xs.length + xs.length) (xs.take (n * 2))
    (xs.drop (n * 2)) (by simp [List.length_take, List.length_drop]; omega) hne
  rw [h, List.take_append_drop]

/-- A single `FlatMap.next` call (including its internal retry loop)
preserves the window invariant. -/
theorem FlatMap.next_preserves {α γ : Type} {n : Nat} {f : α → List γ} {xs : List α} :
    ∀ (N : Nat) (m m' : FlatMap α γ) (x : Option γ),
      m.queue.length + m.iter.length ≤ N →
      FlatMap.next m = Except.ok (x, m') →
      (m.f = f ∧ m.pool = n ∧ m.queue.length ≤ n * 2 ∧
        ∃ done pend, xs = done ++ pend ++ m.iter
          ∧ m.queue = pend.map (fun a => Except.ok (f a))) →
      (m'.f = f ∧ m'.pool = n ∧ m'.queue.length ≤ n * 2 ∧
        ∃ done pend, xs = done ++ pend ++ m'.iter
          ∧ m'.queue = pend.map (fun a => Except.ok (f a))) := by
  intro N
  induction N with
  | zero =>
    intro m m' x hN hnext hinv
    rcases m with ⟨p, queue, it, mf, cur⟩
    simp at hN
    obtain ⟨hq, hit⟩ := hN
    have hq' : queue = [] := by cases queue <;> simp_all
    have hit' : it = [] := by cases it <;> simp_all
    subst hq'; subst hit'
    cases cur with
    | nil =>
      simp [FlatMap.next] at hnext
      obtain ⟨hx, hm'⟩ := hnext
      subst hm'
      exact hinv
    | cons y rest =>
      simp [FlatMap.next] at hnext
      obtain ⟨hx, hm'⟩ := hnext
      subst hm'
      obtain ⟨hf, hp, hlen, done, pend, hxs, hqeq⟩ := hinv
      exact ⟨hf, hp, hlen, done, pend, hxs, hqeq⟩
  | succ N ih =>
    intro m m' x hN hnext hinv
    rcases m with ⟨p, queue, it, mf, cur⟩
    cases cur with
    | cons y rest =>
      simp [FlatMap.next] at hnext
      obtain ⟨hx, hm'⟩ := hnext
      subst hm'
      obtain ⟨hf, hp, hlen, done, pend, hxs, hqeq⟩ := hinv
      exact ⟨hf, hp, hlen, done, pend, hxs, hqeq⟩
    | nil =>
      cases queue with
      | nil =>
        simp [FlatMap.next] at hnext
        obtain ⟨hx, hm'⟩ := hnext
        subst hm'
        exact hinv
      | cons t q =>
        obtain ⟨hf, hp, hlen, done, pend, hxs, hqeq⟩ := hinv
        simp only at hf hp hxs hqeq
        subst hf; subst hp
        cases pend with
        | nil => simp at hqeq
        | cons a pend' =>
          simp only [List.map_cons, List.cons.injEq] at hqeq
          obtain ⟨ht, hq⟩ := hqeq
          subst ht; subst hq
          simp only [FlatMap.next] at hnext
          refine ih _ m' x ?_ hnext ?_
          · rcases it with _ | ⟨y, ys⟩ <;> simp [FlatMap.spawn] at hN ⊢ <;> omega
          · cases it with
            | nil =>
              refine ⟨rfl, rfl, ?_, done ++ [a], pend', ?_, ?_⟩
              · simp [FlatMap.spawn] at hlen ⊢; omega
              · simp only [FlatMap.spawn, List.append_assoc] at hxs ⊢
                simpa using hxs
              · simp [FlatMap.spawn]
            | cons y ys =>
              refine ⟨rfl, rfl, ?_, done ++ [a], pend' ++ [y], ?_, ?_⟩
              · simp [FlatMap.spawn] at hlen ⊢; omega
              · simp only [FlatMap.spawn, List.append_assoc] at hxs ⊢
                simpa using hxs
              · simp [FlatMap.spawn]

/-- Invariant of all states reachable during construction and
consumption of `par_flat_map n f xs`. -/
theorem FlatMap.flat_reach_inv {α γ : Type} {n : Nat} {f : α → List γ} {xs : List α}
    {m : FlatMap α γ} (h : FlatMap.Reach n f xs m) :
    m.f = f ∧ m.pool = n ∧ m.queue.length ≤ n * 2 ∧
      ∃ done pend, xs = done ++ pend ++ m.iter
        ∧ m.queue = pend.map (fun a => Except.ok (f a)) := by
  induction h with
  | init k hk =>
    rw [FlatMap.flat_spawn_iterate]
    refine ⟨rfl, rfl, ?_, [], xs.take k, ?_, rfl⟩
    · simp [List.length_take]
      omega
    · simp [List.take_append_drop]
  | step hr hnext ih =>
    rename_i m m' x
    exact FlatMap.next_preserves (m.queue.length + m.iter.length) m m' x (le_refl _)
      hnext ih

/-- If every queued task is an `Ok`, `FlatMap.next` cannot surface an
error (fuel-indexed). -/
theorem FlatMap.next_ok_aux {α γ : Type} :
    ∀ (N : Nat) (m : FlatMap α γ), m.queue.length + m.iter.length ≤ N →
      (∀ t ∈ m.queue, ∃ v, t = Except.ok v) →
      ∀ e, FlatMap.next m ≠ Except.error e := by
  intro N
  induction N with
  | zero =>
    intro m hN hok e
    rcases m with ⟨p, queue, it, f, cur⟩
    simp at hN
    have hq' : queue = [] := by cases queue <;> simp_all
    subst hq'
    cases cur <;> simp [FlatMap.next]
  | succ N ih =>
    intro m hN hok e
    rcases m with ⟨p, queue, it, f, cur⟩
    cases cur with
    | cons y rest => simp [FlatMap.next]
    | nil =>
      cases queue with
      | nil => simp [FlatMap.next]
      | cons t q =>
        obtain ⟨v, hv⟩ := hok t (by simp)
        subst hv
        simp only [FlatMap.next]
        apply ih
        · rcases it with _ | ⟨y, ys⟩ <;> simp [FlatMap.spawn] at hN ⊢ <;> omega
        · intro t ht
          rcases it with _ | ⟨y, ys⟩
          · exact hok t (by simp [FlatMap.spawn] at ht; simp [ht])
          · simp [FlatMap.spawn] at ht
            rcases ht with ht | ht
            · exact hok t (by simp [ht])
            · exact ⟨_, ht⟩

/-- When `FlatMap.next` reports end-of-sequence, the state it leaves
behind has an empty current buffer and an empty queue (fuel-indexed). -/
theorem FlatMap.next_none_aux {α γ : Type} :
    ∀ (N : Nat) (m m' : FlatMap α γ), m.queue.length + m.iter.length ≤ N →
      FlatMap.next m = Except.ok (none, m') →
      m'.cur_iter = [] ∧ m'.queue = [] := by
  intro N
  induction N with
  | zero =>
    intro m m' hN hnext
    rcases m with ⟨p, queue, it, f, cur⟩
    simp at hN
    have hq' : queue = [] := by cases queue <;> simp_all
    subst hq'
    cases cur with
    | nil =>
      simp [FlatMap.next] at hnext
      subst hnext
      exact ⟨rfl, rfl⟩
    | cons y rest => simp [FlatMap.next] at hnext
  | succ N ih =>
    intro m m' hN hnext
    rcases m with ⟨p, queue, it, f, cur⟩
    cases cur with
    | cons y rest => simp [FlatMap.next] at hnext
    | nil =>
      cases queue with
      | nil =>
        simp [FlatMap.next] at hnext
        subst hnext
        exact ⟨rfl, rfl⟩
      | cons t q =>
        cases t with
        | error e => simp [FlatMap.next] at hnext
        | ok v =>
          simp only [FlatMap.next] at hnext
          refine ih _ m' ?_ hnext
          rcases it with _ | ⟨y, ys⟩ <;> simp [FlatMap.spawn] at hN ⊢ <;> omega

/-! ## Lemmas about the `Pack` adaptor -/

/-- `Pack.drain` is exactly the loop "call `next` until it returns
`None`". -/
theorem Pack.pack_drain_eq_next {α : Type} (p : Pack α) :
    Pack.drain p =
      match Pack.next p with
      | (none, _) => []
      | (some b, p') => b :: Pack.drain p' := by
  rcases p with ⟨it, nb⟩
  rw [Pack.drain]
  by_cases h : (it.take nb).isEmpty
  · rw [if_pos h]
    simp [Pack.next, h]
  · rw [if_neg h]
    simp [Pack.next, h]

/-- Ceiling-division step: removing one full-or-short batch from a
non-empty run of length `l` lowers `ceil(l / nb)` by one. -/
theorem pack_count_arith (nb : Nat) (hnb : 1 ≤ nb) (l : Nat) (hl : 1 ≤ l) :
    (l - nb + nb - 1) / nb + 1 = (l + nb - 1) / nb := by
  rcases le_or_lt l nb with hle | hlt
  · have h0 : l - nb = 0 := by omega
    have h1 : (nb - 1) / nb = 0 := Nat.div_eq_of_lt (by omega)
    have h2 : (l + nb - 1) / nb = 1 := by
      apply Nat.div_eq_of_lt_le <;> omega
    rw [h0, Nat.zero_add, h1, h2]
  · have h0 : l - nb + nb - 1 = l - 1 := by omega
    have h1 : l + nb - 1 = (l - 1) + nb := by omega
    rw [h0, h1, Nat.add_div_right _ (by omega)]

/-- Joint specification of a full `Pack` run (fuel-indexed): the batches
concatenate back to the source, there are `ceil(len/nb)` of them, none
is empty or longer than `nb`, and every batch except possibly the last
is exactly `nb` long. -/
theorem Pack.drain_spec_aux {α : Type} (nb : Nat) (hnb : 1 ≤ nb) :
    ∀ (N : Nat) (xs : List α), xs.length ≤ N →
      (Pack.drain ⟨xs, nb⟩).flatten = xs
      ∧ (Pack.drain ⟨xs, nb⟩).length = (xs.length + nb - 1) / nb
      ∧ (∀ b ∈ Pack.drain ⟨xs, nb⟩, b ≠ [] ∧ b.length ≤ nb)
      ∧ (∀ b ∈ (Pack.drain ⟨xs, nb⟩).dropLast, b.length = nb) := by
  have hnil : ∀ (ys : List α), ys = [] →
      (Pack.drain ⟨ys, nb⟩).flatten = ys
      ∧ (Pack.drain ⟨ys, nb⟩).length = (ys.length + nb - 1) / nb
      ∧ (∀ b ∈ Pack.drain ⟨ys, nb⟩, b ≠ [] ∧ b.length ≤ nb)
      ∧ (∀ b ∈ (Pack.drain ⟨ys, nb⟩).dropLast, b.length = nb) := by
    intro ys hys
    subst hys
    rw [Pack.drain]
    refine ⟨by simp, ?_, by simp, by simp⟩
    simp only [List.take_nil, List.isEmpty_nil, if_pos, List.length_nil, Nat.zero_add]
    exact (Nat.div_eq_of_lt (by omega)).symm
  intro N
  induction N with
  | zero =>
    intro xs hN
    exact hnil xs (by cases xs <;> simp_all)
  | succ N ih =>
    intro xs hN
    cases xs with
    | nil => exact hnil [] rfl
    | cons x xs' =>
      have hne : ¬ (((x :: xs').take nb).isEmpty = true) := by
        simp only [List.isEmpty_iff, List.take_eq_nil_iff, not_or]
        exact ⟨by omega, by simp⟩
      rw [Pack.drain, if_neg hne]
      obtain ⟨ihflat, ihlen, ihmem, ihlast⟩ :=
        ih ((x :: xs').drop nb) (by simp [List.length_drop] at hN ⊢; omega)
      refine ⟨?_, ?_, ?_, ?_⟩
      · simp only [List.flatten_cons, ihflat, List.take_append_drop]
      · rw [List.length_cons, ihlen, List.length_drop]
        exact pack_count_arith nb hnb (x :: xs').length (by simp)
      · intro b hb
        rcases List.mem_cons.mp hb with hb | hb
        · subst hb
          constructor
          · simp only [ne_eq, List.take_eq_nil_iff, not_or]
            exact ⟨by omega, by simp⟩
          · simp only [List.length_take]
            omega
        · exact ihmem b hb
      · intro b hb
        cases htl : Pack.drain ⟨(x :: xs').drop nb, nb⟩ with
        | nil =>
          rw [htl] at hb
          simp at hb
        | cons h2 t2 =>
          rw [htl] at hb
          rw [List.dropLast_cons₂] at hb
          rcases List.mem_cons.mp hb with hb | hb
          · subst hb
            have hdrop : (x :: xs').drop nb ≠ [] := by
              intro hcontra
              rw [hcontra, Pack.drain] at htl
              simp at htl
            have hlong : nb < (x :: xs').length := by
              by_contra hcontra
              exact hdrop (List.drop_eq_nil_of_le (by omega))
            simp only [List.length_take]
            omega
          · rw [← htl] at hb
            exact ihlast b hb

/-! ## Claims -/

/-- C1: for every finite source sequence `S` and pure function `f`,
consuming `par_map f` on `S` (repeatedly calling `next` until `None`,
see `Map.map_drain_eq_next`) yields exactly `f` applied sequentially to each
element of `S`, in the same order.  The pool always has at least one
worker (`num_cpus::get() ≥ 1`). -/
theorem claim_C1_par_map_preserves_order {α β : Type} (numThreads : Nat) (f : α → β)
    (S : List α) (h : 1 ≤ numThreads) :
    Map.drain (par_map numThreads f S) = Except.ok (S.map f) :=
  par_map_run numThreads f S h

/-- Witness for C1 at `numThreads = 1`, `f = (2 * ·)`, `S = [1, 2, 3]`. -/
theorem claim_C1_witness :
    Map.drain (par_map 1 (fun x => 2 * x) [1, 2, 3]) = Except.ok [2, 4, 6] := by
  have h := claim_C1_par_map_preserves_order 1 (fun x => 2 * x) [1, 2, 3] (by decide)
  simpa using h

/-- C2: for `nb ≥ 1`, `pack nb` on `S` yields exactly
`ceil (len S / nb)` batches whose concatenation is `S`, each non-empty
and at most `nb` long, every batch except possibly the last exactly `nb`
long; on an empty sequence it yields no batches. -/
theorem claim_C2_pack_batches {α : Type} (nb : Nat) (S : List α) (h : 1 ≤ nb) :
    (Pack.drain (pack S nb)).flatten = S
    ∧ (Pack.drain (pack S nb)).length = (S.length + nb - 1) / nb
    ∧ (∀ b ∈ Pack.drain (pack S nb), b ≠ [] ∧ b.length ≤ nb)
    ∧ (∀ b ∈ (Pack.drain (pack S nb)).dropLast, b.length = nb)
    ∧ (S = [] → Pack.drain (pack S nb) = []) := by
  have h4 := Pack.drain_spec_aux nb h S.length S (le_refl _)
  refine ⟨h4.1, h4.2.1, h4.2.2.1, h4.2.2.2, ?_⟩
  intro hS
  subst hS
  rw [Pack.drain]
  simp [pack]

/-- Witness for C2 at `nb = 3`, `S = [1, .., 7]` (doc-test scenario). -/
theorem claim_C2_witness :
    (Pack.drain (pack [1, 2, 3, 4, 5, 6, 7] 3)).flatten = [1, 2, 3, 4, 5, 6, 7]
    ∧ (Pack.drain (pack [1, 2, 3, 4, 5, 6, 7] 3)).length
        = (([1, 2, 3, 4, 5, 6, 7] : List Nat).length + 3 - 1) / 3
    ∧ (∀ b ∈ Pack.drain (pack [1, 2, 3, 4, 5, 6, 7] 3), b ≠ [] ∧ b.length ≤ 3)
    ∧ (∀ b ∈ (Pack.drain (pack [1, 2, 3, 4, 5, 6, 7] 3)).dropLast, b.length = 3)
    ∧ (([1, 2, 3, 4, 5, 6, 7] : List Nat) = []
        → Pack.drain (pack [1, 2, 3, 4, 5, 6, 7] 3) = []) :=
  claim_C2_pack_batches 3 [1, 2, 3, 4, 5, 6, 7] (by decide)

/-- C3 counterexample: the claim quantifies over *every* `nb`, but at
`nb = 0` the `Pack` upstream yields no batches at all, so
`par_packed_map 0 f` produces the empty sequence while `par_map f` maps
the whole input: they differ already on `S = [1]`. -/
theorem claim_C3_counterexample :
    FlatMap.drain (par_packed_map 1 0 (fun x : Nat => 2 * x) [1])
      ≠ Map.drain (par_map 1 (fun x : Nat => 2 * x) [1]) := by
  have hpack : Pack.drain (pack ([1] : List Nat) 0) = [] := by
    rw [Pack.drain]
    simp [pack]
  have h1 : FlatMap.drain (par_packed_map 1 0 (fun x : Nat => 2 * x) [1])
      = Except.ok [] := by
    rw [par_packed_map, hpack]
    have h := par_flat_map_run 1 (fun batch : List Nat => batch.map (fun x => 2 * x))
      [] (by decide)
    simpa using h
  have h2 : Map.drain (par_map 1 (fun x : Nat => 2 * x) [1]) = Except.ok [2] := by
    have h := par_map_run 1 (fun x : Nat => 2 * x) [1] (by decide)
    simpa using h
  rw [h1, h2]
  simp

/-- C3 (amended with the spec's `nb ≥ 1` precondition): for `nb ≥ 1`
and at least one worker, `par_packed_map nb f` on `S` yields exactly the
sequence `par_map f` yields on `S` — batching is purely an
optimization. -/
theorem claim_C3_packed_map_eq_par_map {α β : Type} (n nb : Nat) (f : α → β)
    (S : List α) (hn : 1 ≤ n) (hnb : 1 ≤ nb) :
    FlatMap.drain (par_packed_map n nb f S) = Map.drain (par_map n f S) := by
  rw [par_map_run n f S hn, par_packed_map, par_flat_map_run _ _ _ hn]
  have hflat : (Pack.drain (pack S nb)).flatten = S :=
    (Pack.drain_spec_aux nb hnb S.length S (le_refl _)).1
  congr 1
  rw [← List.map_flatten, hflat]

/-- Witness for the amended C3 at `n = 1`, `nb = 2`, `f = (2 * ·)`,
`S = [1, 2, 3]` (doc-test scenario 4). -/
theorem claim_C3_witness :
    FlatMap.drain (par_packed_map 1 2 (fun x : Nat => 2 * x) [1, 2, 3])
      = Map.drain (par_map 1 (fun x : Nat => 2 * x) [1, 2, 3]) :=
  claim_C3_packed_map_eq_par_map 1 2 (fun x : Nat => 2 * x) [1, 2, 3]
    (by decide) (by decide)

/-- C4: consuming `par_flat_map f` on `S` yields exactly the
concatenation of the sequences `f s` in source order — across-task order
(position in `S`) and within-task order (position inside each `f s`) are
both preserved, which is precisely equality with
`(S.map f).flatten`. -/
theorem claim_C4_par_flat_map_concat {α γ : Type} (n : Nat) (f : α → List γ)
    (S : List α) (h : 1 ≤ n) :
    FlatMap.drain (par_flat_map n f S) = Except.ok ((S.map f).flatten) :=
  par_flat_map_run n f S h

/-- Witness for C4: flattening sub-sequences in order. -/
theorem claim_C4_witness :
    FlatMap.drain (par_flat_map 1 (fun s => s) [[1, 2], [3], [4, 5]])
      = Except.ok [1, 2, 3, 4, 5] := by
  have h := claim_C4_par_flat_map_concat 1 (fun s => s) [[1, 2], [3], [4, 5]]
    (by decide)
  simpa using h

/-- C5: in every state reachable during construction or consumption of a
`Map` or `FlatMap` adaptor with pool size `n`, the window length is
between `0` (trivially, as a `Nat`) and `2 * n`, and the queue holds
exactly the consecutive block of already-pulled-but-not-yet-consumed
source items, as tasks in pull order, between the consumed prefix `done`
and the unpulled remainder — so the `i`-th task removed (always from the
front) corresponds to the `i`-th item pulled from the source. -/
theorem claim_C5_window_invariant {α β γ : Type} (n : Nat) (f : α → β)
    (g : α → List γ) (xs : List α) (m : Map α β) (mf : FlatMap α γ)
    (hm : Map.Reach n f xs m) (hf : FlatMap.Reach n g xs mf) :
    (m.queue.length ≤ 2 * n
      ∧ ∃ done pend, xs = done ++ pend ++ m.iter
          ∧ m.queue = pend.map (fun a => Except.ok (f a)))
    ∧ (mf.queue.length ≤ 2 * n
      ∧ ∃ done pend, xs = done ++ pend ++ mf.iter
          ∧ mf.queue = pend.map (fun a => Except.ok (g a))) := by
  obtain ⟨_, _, h1, h2⟩ := Map.map_reach_inv hm
  obtain ⟨_, _, h3, h4⟩ := FlatMap.flat_reach_inv hf
  exact ⟨⟨by omega, h2⟩, ⟨by omega, h4⟩⟩

/-- Witness for C5 at the freshly constructed adaptors for
`S = [1, 2, 3]`, pool size 1. -/
theorem claim_C5_witness :
    ((par_map 1 (fun x : Nat => x) [1, 2, 3]).queue.length ≤ 2 * 1
      ∧ ∃ done pend, [1, 2, 3] = done ++ pend ++ (par_map 1 (fun x : Nat => x) [1, 2, 3]).iter
          ∧ (par_map 1 (fun x : Nat => x) [1, 2, 3]).queue
              = pend.map (fun a => Except.ok ((fun x : Nat => x) a)))
    ∧ ((par_flat_map 1 (fun x : Nat => [x]) [1, 2, 3]).queue.length ≤ 2 * 1
      ∧ ∃ done pend, [1, 2, 3] = done ++ pend ++ (par_flat_map 1 (fun x : Nat => [x]) [1, 2, 3]).iter
          ∧ (par_flat_map 1 (fun x : Nat => [x]) [1, 2, 3]).queue
              = pend.map (fun a => Except.ok ((fun x : Nat => [x]) a))) :=
  claim_C5_window_invariant 1 (fun x : Nat => x) (fun x : Nat => [x]) [1, 2, 3]
    (par_map 1 (fun x : Nat => x) [1, 2, 3])
    (par_flat_map 1 (fun x : Nat => [x]) [1, 2, 3])
    (Map.Reach.init 2 (by decide)) (FlatMap.Reach.init 2 (by decide))

/-- C6: construction of `par_map` / `par_flat_map` eagerly pulls exactly
`min (2 * n) (len S)` items (the first `2 * n`), submits one task per
pulled item in pull order, and advances the source past exactly those
items — all before any call to `next`. -/
theorem claim_C6_construction_prefill {α β γ : Type} (n : Nat) (f : α → β)
    (g : α → List γ) (S : List α) :
    (par_map n f S).queue = (S.take (2 * n)).map (fun a => Except.ok (f a))
    ∧ (par_map n f S).iter = S.drop (2 * n)
    ∧ (par_map n f S).queue.length = min (2 * n) S.length
    ∧ (par_flat_map n g S).queue = (S.take (2 * n)).map (fun a => Except.ok (g a))
    ∧ (par_flat_map n g S).iter = S.drop (2 * n)
    ∧ (par_flat_map n g S).queue.length = min (2 * n) S.length := by
  rw [par_map_state, par_flat_map_state]
  refine ⟨by rw [Nat.mul_comm], by rw [Nat.mul_comm], ?_,
    by rw [Nat.mul_comm], by rw [Nat.mul_comm], ?_⟩ <;>
    simp only [List.length_map, List.length_take] <;> omega

/-- C7: in every consumption-reachable state of a `par_map` adaptor
(pool size ≥ 1), `next` on an empty window reports end-of-sequence
(never an error), the window is only empty once the source is exhausted,
and on a non-empty window `next` pops the front task, obtains its `Ok`
result, spawns at most one replacement (`Map.spawn` pulls at most one
item), and returns the completed result. -/
theorem claim_C7_map_next_exhaustion {α β : Type} (n : Nat) (f : α → β) (S : List α)
    (hn : 1 ≤ n) (m : Map α β) (h : Map.ReachN (par_map n f S) m) :
    (m.queue = [] → Map.next m = Except.ok (none, m) ∧ m.iter = [])
    ∧ (∀ t q, m.queue = t :: q →
        ∃ b, t = Except.ok b
          ∧ Map.next m = Except.ok (some b, Map.spawn { m with queue := q })) := by
  constructor
  · intro hq
    refine ⟨?_, ?_⟩
    · rcases m with ⟨p, queue, it, mf⟩
      simp only at hq
      subst hq
      simp [Map.next]
    · by_contra hit
      exact (Map.reachN_queue_nonempty hn h hit) hq
  · intro t q hq
    obtain ⟨_, _, _, done, pend, hxs, hqeq⟩ := Map.map_reach_inv (Map.reachN_reach h)
    cases pend with
    | nil =>
      rw [hq] at hqeq
      simp at hqeq
    | cons a pend' =>
      rw [hq] at hqeq
      simp only [List.map_cons, List.cons.injEq] at hqeq
      obtain ⟨ht, hqtail⟩ := hqeq
      refine ⟨f a, ht, ?_⟩
      rcases m with ⟨p, queue, it, mf⟩
      simp only at hq
      subst hq
      simp [Map.next, ht]

/-- Witness for C7 at the constructed adaptor on an empty source. -/
theorem claim_C7_witness :
    ((par_map 1 (fun x : Nat => x) []).queue = [] →
        Map.next (par_map 1 (fun x : Nat => x) [])
            = Except.ok (none, par_map 1 (fun x : Nat => x) [])
          ∧ (par_map 1 (fun x : Nat => x) []).iter = [])
    ∧ (∀ t q, (par_map 1 (fun x : Nat => x) []).queue = t :: q →
        ∃ b, t = Except.ok b
          ∧ Map.next (par_map 1 (fun x : Nat => x) [])
              = Except.ok (some b,
                  Map.spawn { par_map 1 (fun x : Nat => x) [] with queue := q })) :=
  claim_C7_map_next_exhaustion 1 (fun x : Nat => x) [] (by decide)
    (par_map 1 (fun x : Nat => x) []) (Map.ReachN.refl _)

/-- C8: `FlatMap.next` first drains the current buffer; when it is
exhausted it dequeues the front task, installs that task's buffer as the
new cursor, submits one replacement task (`FlatMap.spawn`), and retries;
and it reports end-of-sequence exactly when both the cursor and the
window are empty — directly when called in such a state, and conversely
the state it leaves behind on `none` has both empty. -/
theorem claim_C8_flat_map_next {α γ : Type} (m : FlatMap α γ) :
    (∀ x rest, m.cur_iter = x :: rest →
        FlatMap.next m = Except.ok (some x, { m with cur_iter := rest }))
    ∧ (∀ v q, m.cur_iter = [] → m.queue = Except.ok v :: q →
        FlatMap.next m
          = FlatMap.next (FlatMap.spawn { m with queue := q, cur_iter := v }))
    ∧ (m.cur_iter = [] → m.queue = [] → FlatMap.next m = Except.ok (none, m))
    ∧ (∀ m', FlatMap.next m = Except.ok (none, m') →
        m'.cur_iter = [] ∧ m'.queue = []) := by
  refine ⟨?_, ?_, ?_, ?_⟩
  · intro x rest hc
    rcases m with ⟨p, queue, it, f, cur⟩
    simp only at hc
    subst hc
    simp [FlatMap.next]
  · intro v q hc hq
    rcases m with ⟨p, queue, it, f, cur⟩
    simp only at hc hq
    subst hc
    subst hq
    simp [FlatMap.next]
  · intro hc hq
    rcases m with ⟨p, queue, it, f, cur⟩
    simp only at hc hq
    subst hc
    subst hq
    simp [FlatMap.next]
  · intro m' h
    exact FlatMap.next_none_aux (m.queue.length + m.iter.length) m m' (le_refl _) h

/-- Witness for C8: draining a non-empty cursor yields its head. -/
theorem claim_C8_witness :
    FlatMap.next (⟨1, [], [], (fun x : Nat => [x]), [5, 6]⟩ : FlatMap Nat Nat)
      = Except.ok (some 5, (⟨1, [], [], (fun x : Nat => [x]), [6]⟩ : FlatMap Nat Nat)) :=
  (claim_C8_flat_map_next ⟨1, [], [], (fun x : Nat => [x]), [5, 6]⟩).1 5 [6] rfl

/-- C9: with the degenerate batch size `nb = 0` (outside the spec's
`nb ≥ 1` precondition), `Pack.next` returns `none` on every call — the
state is a fixed point, so no source element is ever consumed — the full
`Pack` run yields no batches, and `par_packed_map 0 f` yields the empty
sequence even on non-empty input: batch size 0 silently drops all
input instead of failing. -/
theorem claim_C9_pack_zero_drops_input {α β : Type} (n : Nat) (f : α → β) (S : List α) :
    Pack.next (pack S 0) = (none, pack S 0)
    ∧ Pack.drain (pack S 0) = []
    ∧ FlatMap.drain (par_packed_map n 0 f S) = Except.ok [] := by
  have hdrain : Pack.drain (pack S 0) = [] := by
    rw [Pack.drain]
    simp [pack]
  refine ⟨?_, hdrain, ?_⟩
  · simp [Pack.next, pack]
  · rw [par_packed_map, hdrain, par_flat_map_state]
    simp [FlatMap.drain]

/-- C10: in every reachable state of either engine, every task in the
window is an `Ok` (the spawned closures always return `Ok`), so the
`unwrap()` after `future.wait()` never observes `Err`: `next` never
takes the error path. -/
theorem claim_C10_no_error {α β γ : Type} (n : Nat) (f : α → β) (g : α → List γ)
    (xs : List α) (m : Map α β) (mf : FlatMap α γ)
    (hm : Map.Reach n f xs m) (hf : FlatMap.Reach n g xs mf) :
    (∀ t ∈ m.queue, ∃ b, t = Except.ok b)
    ∧ (∀ e, Map.next m ≠ Except.error e)
    ∧ (∀ t ∈ mf.queue, ∃ v, t = Except.ok v)
    ∧ (∀ e, FlatMap.next mf ≠ Except.error e) := by
  obtain ⟨_, _, _, done, pend, hxs, hq⟩ := Map.map_reach_inv hm
  obtain ⟨_, _, _, done2, pend2, hxs2, hq2⟩ := FlatMap.flat_reach_inv hf
  have hok : ∀ t ∈ m.queue, ∃ b, t = Except.ok b := by
    intro t ht
    rw [hq] at ht
    simp only [List.mem_map] at ht
    obtain ⟨a, _, ha⟩ := ht
    exact ⟨f a, ha.symm⟩
  have hok2 : ∀ t ∈ mf.queue, ∃ v, t = Except.ok v := by
    intro t ht
    rw [hq2] at ht
    simp only [List.mem_map] at ht
    obtain ⟨a, _, ha⟩ := ht
    exact ⟨g a, ha.symm⟩
  refine ⟨hok, ?_, hok2, ?_⟩
  · intro e
    rcases m with ⟨p, queue, it, mff⟩
    cases queue with
    | nil => simp [Map.next]
    | cons t q =>
      obtain ⟨b, hb⟩ := hok t (by simp)
      subst hb
      simp [Map.next]
  · intro e
    exact FlatMap.next_ok_aux (mf.queue.length + mf.iter.length) mf (le_refl _) hok2 e

/-- Witness for C10 at the freshly constructed adaptors for
`S = [1, 2]`, pool size 1. -/
theorem claim_C10_witness :
    (∀ t ∈ (par_map 1 (fun x : Nat => x) [1, 2]).queue, ∃ b, t = Except.ok b)
    ∧ (∀ e, Map.next (par_map 1 (fun x : Nat => x) [1, 2]) ≠ Except.error e)
    ∧ (∀ t ∈ (par_flat_map 1 (fun x : Nat => [x]) [1, 2]).queue, ∃ v, t = Except.ok v)
    ∧ (∀ e, FlatMap.next (par_flat_map 1 (fun x : Nat => [x]) [1, 2]) ≠ Except.error e) :=
  claim_C10_no_error 1 (fun x : Nat => x) (fun x : Nat => [x]) [1, 2]
    (par_map 1 (fun x : Nat => x) [1, 2])
    (par_flat_map 1 (fun x : Nat => [x]) [1, 2])
    (Map.Reach.init 2 (by decide)) (FlatMap.Reach.init 2 (by decide))

end ParMap
